/- Verification of the xtra document-extraction library: shallow embedding of
its data model, orchestration, geometry and aggregation code, with theorems
settling the specified properties. Python floats are modelled as rationals
(`ℚ`), exceptions as `Except`/`Option`, and `math.atan2` as a real-valued
function. -/

import Mathlib

namespace Xtra

/-- Embeds `xtra.models.BBox`: axis-aligned bounding box, four floats. -/
structure BBox where
  x0 : ℚ
  y0 : ℚ
  x1 : ℚ
  y1 : ℚ
deriving DecidableEq, Inhabited

/-- Embeds `xtra.models.FontInfo`. -/
structure FontInfo where
  name : Option String := none
  size : Option ℚ := none
  flags : Option Int := none
  weight : Option Int := none
deriving DecidableEq, Inhabited

/-- Embeds `xtra.models.TextBlock`. -/
structure TextBlock where
  text : String
  bbox : BBox
  rotation : ℚ := 0
  confidence : Option ℚ := none
  font_info : Option FontInfo := none
deriving DecidableEq, Inhabited

/-- Embeds `xtra.models.CoordinateUnit`. -/
inductive CoordinateUnit where
  | pixels
  | points
  | inches
  | normalized
deriving DecidableEq

/-- Embeds `xtra.models.Page` (the optional `coordinate_info` tag is omitted; no
claim concerns it). -/
structure Page where
  page : Int
  width : ℚ
  height : ℚ
  texts : List TextBlock := []
deriving DecidableEq

/-- Embeds `xtra.extractors.base.ExtractionResult`. -/
structure ExtractionResult where
  page : Page
  success : Bool
  error : Option String := none
deriving DecidableEq

/-- Embeds `xtra.extractors.base.ExecutorType`: the `"thread"` / `"process"` literal. -/
inductive ExecutorType where
  | thread
  | process
deriving DecidableEq

/-- Python `range(start, stop, step)` for a positive step (used by
`_batch_pages` as `range(0, len(pages), pages_per_batch)`). Structural
recursion on a fuel argument so that the kernel can evaluate it; the fuel
`stop - start` is enough because `start` grows by `step ≥ 1` each round. -/
def rangeStepAux : Nat → Nat → Nat → Nat → List Nat
  | 0, _, _, _ => []
  | fuel + 1, start, stop, step =>
    if start < stop ∧ 0 < step then
      start :: rangeStepAux fuel (start + step) stop step
    else
      []

/-- Python `range(start, stop, step)` for a positive step. -/
def rangeStep (start stop step : Nat) : List Nat :=
  rangeStepAux (stop - start) start stop step

theorem rangeStepAux_fuel (stop step : Nat) :
    ∀ fuel start, stop - start ≤ fuel →
      rangeStepAux fuel start stop step = rangeStep start stop step := by
  have key : ∀ f1 f2 start, stop - start ≤ f1 → stop - start ≤ f2 →
      rangeStepAux f1 start stop step = rangeStepAux f2 start stop step := by
    intro f1
    induction f1 with
    | zero =>
      intro f2 start h1 h2
      match f2 with
      | 0 => rfl
      | f2 + 1 =>
        rw [rangeStepAux, rangeStepAux]
        rw [if_neg (by omega)]
    | succ m ih =>
      intro f2 start h1 h2
      match f2 with
      | 0 =>
        rw [rangeStepAux, rangeStepAux]
        rw [if_neg (by omega)]
      | f2 + 1 =>
        rw [rangeStepAux, rangeStepAux]
        by_cases hc : start < stop ∧ 0 < step
        · rw [if_pos hc, if_pos hc]
          rw [ih f2 (start + step) (by omega) (by omega)]
        · rw [if_neg hc, if_neg hc]
  intro fuel start h
  exact key fuel (stop - start) start h le_rfl

theorem rangeStep_unfold (start stop step : Nat) :
    rangeStep start stop step =
      if start < stop ∧ 0 < step then
        start :: rangeStep (start + step) stop step
      else
        [] := by
  by_cases hc : start < stop ∧ 0 < step
  · rw [if_pos hc]
    unfold rangeStep
    have h1 : stop - start = (stop - start - 1) + 1 := by omega
    rw [h1, rangeStepAux, if_pos hc]
    rw [rangeStepAux_fuel stop step (stop - start - 1) (start + step) (by omega)]
    rfl
  · rw [if_neg hc]
    unfold rangeStep
    match h : stop - start with
    | 0 => rfl
    | f + 1 =>
      rw [rangeStepAux, if_neg hc]

/-- Embeds `xtra.llm_factory._batch_pages`: `if not pages: return []` then
`[pages[i : i + pages_per_batch] for i in range(0, len(pages), pages_per_batch)]`.
The slice `pages[i : i + n]` is `(pages.drop i).take n`. -/
def _batch_pages (pages : List Int) (pages_per_batch : Nat) : List (List Int) :=
  if pages.isEmpty then []
  else
    (rangeStep 0 pages.length pages_per_batch).map
      (fun i => (pages.drop i).take pages_per_batch)

/-- Spec-side recursive chunker: contiguous chunks of size `n` in input
order, final chunk possibly shorter, empty list gives no chunks. Used to
state what `_batch_pages` must compute. -/
def chunks (n : Nat) : List Int → List (List Int)
  | [] => []
  | x :: xs => (x :: xs.take (n - 1)) :: chunks n (xs.drop (n - 1))
termination_by l => l.length
decreasing_by simp [List.length_drop]; omega

theorem chunks_nil (n : Nat) : chunks n [] = [] := by
  simp [chunks]

theorem chunks_cons (n : Nat) (x : Int) (xs : List Int) :
    chunks n (x :: xs) = (x :: xs.take (n - 1)) :: chunks n (xs.drop (n - 1)) := by
  rw [chunks]

theorem chunks_cons_eq (n : Nat) (hn : 1 ≤ n) (l : List Int) (hl : l ≠ []) :
    chunks n l = l.take n :: chunks n (l.drop n) := by
  match l with
  | [] => exact absurd rfl hl
  | x :: xs =>
    rw [chunks_cons]
    obtain ⟨m, rfl⟩ : ∃ m, n = m + 1 := ⟨n - 1, by omega⟩
    simp

theorem rangeStep_map_slices (step : Nat) (hstep : 1 ≤ step) (l : List Int) :
    ∀ start,
      (rangeStep start l.length step).map (fun i => (l.drop i).take step)
        = chunks step (l.drop start) := by
  have key : ∀ fuel start, l.length - start ≤ fuel →
      (rangeStep start l.length step).map (fun i => (l.drop i).take step)
        = chunks step (l.drop start) := by
    intro fuel
    induction fuel with
    | zero =>
      intro start h
      have hge : l.length ≤ start := by omega
      rw [rangeStep_unfold, if_neg (by omega)]
      rw [List.drop_eq_nil_of_le hge, chunks_nil, List.map_nil]
    | succ m ih =>
      intro start h
      by_cases hlt : start < l.length
      · rw [rangeStep_unfold, if_pos ⟨hlt, by omega⟩, List.map_cons]
        rw [ih (start + step) (by omega)]
        have hne : l.drop start ≠ [] := by
          intro hc
          have := List.drop_eq_nil_iff.mp hc
          omega
        rw [chunks_cons_eq step hstep (l.drop start) hne]
        rw [List.drop_drop]
      · rw [rangeStep_unfold, if_neg (by omega)]
        rw [List.drop_eq_nil_of_le (by omega), chunks_nil, List.map_nil]
  intro start
  exact key (l.length - start) start le_rfl

theorem _batch_pages_eq_chunks (pages : List Int) (n : Nat) (hn : 1 ≤ n) :
    _batch_pages pages n = chunks n pages := by
  unfold _batch_pages
  by_cases hp : pages.isEmpty
  · rw [if_pos hp]
    rw [List.isEmpty_iff] at hp
    rw [hp, chunks_nil]
  · rw [if_neg hp]
    have := rangeStep_map_slices n hn pages 0
    simpa using this

theorem chunks_flatten (n : Nat) (hn : 1 ≤ n) :
    ∀ l : List Int, (chunks n l).flatten = l := by
  have key : ∀ fuel (l : List Int), l.length ≤ fuel → (chunks n l).flatten = l := by
    intro fuel
    induction fuel with
    | zero =>
      intro l h
      have hl : l = [] := List.length_eq_zero.mp (by omega)
      rw [hl, chunks_nil, List.flatten_nil]
    | succ m ih =>
      intro l h
      match l with
      | [] => rw [chunks_nil, List.flatten_nil]
      | x :: xs =>
        rw [chunks_cons, List.flatten_cons]
        rw [ih (xs.drop (n - 1)) (by simp [List.length_drop]; simp at h; omega)]
        simp [List.take_append_drop]
  intro l
  exact key l.length l le_rfl

theorem chunks_mem_size (n : Nat) (hn : 1 ≤ n) :
    ∀ (l : List Int), ∀ c ∈ chunks n l, c.length ≤ n ∧ c ≠ [] := by
  have key : ∀ fuel (l : List Int), l.length ≤ fuel →
      ∀ c ∈ chunks n l, c.length ≤ n ∧ c ≠ [] := by
    intro fuel
    induction fuel with
    | zero =>
      intro l h c hc
      have hl : l = [] := List.length_eq_zero.mp (by omega)
      rw [hl, chunks_nil] at hc
      exact absurd hc (List.not_mem_nil c)
    | succ m ih =>
      intro l h c hc
      match l with
      | [] =>
        rw [chunks_nil] at hc
        exact absurd hc (List.not_mem_nil c)
      | x :: xs =>
        rw [chunks_cons] at hc
        rcases List.mem_cons.mp hc with hc | hc
        · subst hc
          constructor
          · simp
            omega
          · simp
        · exact ih (xs.drop (n - 1)) (by simp [List.length_drop]; simp at h; omega) c hc
  intro l
  exact key l.length l le_rfl

theorem chunks_non_final_full (n : Nat) (hn : 1 ≤ n) :
    ∀ (l : List Int) (i : Nat), i + 1 < (chunks n l).length →
      ((chunks n l).getD i []).length = n := by
  have key : ∀ fuel (l : List Int), l.length ≤ fuel →
      ∀ (i : Nat), i + 1 < (chunks n l).length →
        ((chunks n l).getD i []).length = n := by
    intro fuel
    induction fuel with
    | zero =>
      intro l h i hi
      have hl : l = [] := List.length_eq_zero.mp (by omega)
      rw [hl, chunks_nil] at hi
      simp at hi
    | succ m ih =>
      intro l h i hi
      match l with
      | [] =>
        rw [chunks_nil] at hi
        simp at hi
      | x :: xs =>
        rw [chunks_cons] at hi ⊢
        match i with
        | 0 =>
          rw [List.getD_cons_zero]
          have hrest : chunks n (xs.drop (n - 1)) ≠ [] := by
            intro hc
            rw [List.length_cons, hc] at hi
            simp at hi
          have hxs : xs.drop (n - 1) ≠ [] := by
            intro hc
            rw [hc, chunks_nil] at hrest
            exact hrest rfl
          have hlen : n - 1 < xs.length := by
            by_contra hcon
            exact hxs (List.drop_eq_nil_of_le (by omega))
          simp [List.length_take]
          omega
        | i + 1 =>
          rw [List.getD_cons_succ]
          exact ih (xs.drop (n - 1)) (by simp [List.length_drop]; simp at h; omega) i
            (by simpa using Nat.lt_of_succ_lt_succ hi)
  intro l
  exact key l.length l le_rfl

/-- Claim C9: for every page list and every `pages_per_batch ≥ 1`,
`_batch_pages` returns the contiguous chunks of size at most
`pages_per_batch` in input order, whose concatenation is the input, in
which every chunk is nonempty, only the final chunk may be shorter than
`pages_per_batch`, the empty input yields the empty list, and
`_batch_pages [0,1,2,3,4] 2 = [[0,1],[2,3],[4]]`. -/
theorem batch_pages_chunking (pages : List Int) (n : Nat) (hn : 1 ≤ n) :
    (_batch_pages pages n).flatten = pages
    ∧ (∀ c ∈ _batch_pages pages n, c.length ≤ n ∧ c ≠ [])
    ∧ (∀ (i : Nat), i + 1 < (_batch_pages pages n).length →
        ((_batch_pages pages n).getD i []).length = n)
    ∧ _batch_pages [] n = []
    ∧ _batch_pages [0, 1, 2, 3, 4] 2 = [[0, 1], [2, 3], [4]] := by
  rw [_batch_pages_eq_chunks pages n hn]
  refine ⟨chunks_flatten n hn pages, chunks_mem_size n hn pages,
    chunks_non_final_full n hn pages, ?_, ?_⟩
  · rfl
  · rfl

theorem batch_pages_chunking_witness :
    1 ≤ 2 ∧ (_batch_pages [0, 1, 2, 3, 4] 2).flatten = [0, 1, 2, 3, 4] :=
  ⟨by decide, (batch_pages_chunking [0, 1, 2, 3, 4] 2 (by decide)).1⟩

/-- Python dict read `d.get(k, dflt)` on an insertion-ordered association
list (keys unique in an actual dict). -/
def dictGet : List (String × Int) → String → Int → Int
  | [], _, dflt => dflt
  | (k0, v0) :: rest, k, dflt => if k0 = k then v0 else dictGet rest k dflt

/-- Python dict write `d[k] = v`: replace in place when the key exists,
append otherwise (insertion order preserved). -/
def dictSet : List (String × Int) → String → Int → List (String × Int)
  | [], k, v => [(k, v)]
  | (k0, v0) :: rest, k, v =>
    if k0 = k then (k0, v) :: rest else (k0, v0) :: dictSet rest k v

/-- The inner loop of `LLMBatchExtractionResult.total_usage`:
`for key, value in result.usage.items(): total[key] = total.get(key, 0) + value`. -/
def addUsage (total : List (String × Int)) (usage : List (String × Int)) :
    List (String × Int) :=
  usage.foldl (fun t kv => dictSet t kv.1 (dictGet t kv.1 0 + kv.2)) total

/-- Embeds `xtra.llm.models.LLMBatchExtractionResult.total_usage`: each batch's
optional usage dict is folded in; `if result.usage:` skips `None` (and an
empty dict, over which the inner loop would do nothing anyway). -/
def total_usage (batch_usages : List (Option (List (String × Int)))) :
    List (String × Int) :=
  batch_usages.foldl
    (fun total u =>
      match u with
      | none => total
      | some usage => addUsage total usage)
    []

/-- Spec-side contribution of one batch to the total for key `k`: an absent
usage map contributes nothing. -/
def usageAt (k : String) : Option (List (String × Int)) → Int
  | none => 0
  | some usage => dictGet usage k 0

/-- The fold of `total_usage` written as a recursion over the batch list,
generalized over the accumulator (for induction). -/
def total_usage_loop : List (String × Int) → List (Option (List (String × Int))) →
    List (String × Int)
  | t, [] => t
  | t, none :: rest => total_usage_loop t rest
  | t, some usage :: rest => total_usage_loop (addUsage t usage) rest

theorem total_usage_loop_eq_foldl :
    ∀ (b : List (Option (List (String × Int)))) (t : List (String × Int)),
      total_usage_loop t b
        = b.foldl
            (fun total u =>
              match u with
              | none => total
              | some usage => addUsage total usage)
            t := by
  intro b
  induction b with
  | nil => intro t; rfl
  | cons u rest ih =>
    intro t
    match u with
    | none => rw [total_usage_loop, ih]; rfl
    | some usage => rw [total_usage_loop, ih]; rfl

theorem total_usage_eq_loop (b : List (Option (List (String × Int)))) :
    total_usage b = total_usage_loop [] b := by
  rw [total_usage, total_usage_loop_eq_foldl]

theorem dictGet_dictSet (t : List (String × Int)) (k k' : String) (v : Int) :
    dictGet (dictSet t k' v) k 0 = if k' = k then v else dictGet t k 0 := by
  induction t with
  | nil =>
    by_cases h : k' = k
    · simp [dictSet, dictGet, h]
    · simp [dictSet, dictGet, h]
  | cons kv rest ih =>
    obtain ⟨k0, v0⟩ := kv
    by_cases h0 : k0 = k'
    · subst h0
      by_cases h : k0 = k
      · simp [dictSet, dictGet, h]
      · simp [dictSet, dictGet, h]
    · by_cases h : k0 = k
      · subst h
        have hk : ¬ k' = k0 := fun hc => h0 hc.symm
        simp [dictSet, dictGet, h0, hk]
      · simp [dictSet, dictGet, h0, h, ih]

theorem dictGet_not_mem (u : List (String × Int)) (k : String)
    (h : k ∉ u.map Prod.fst) : dictGet u k 0 = 0 := by
  induction u with
  | nil => rfl
  | cons kv rest ih =>
    obtain ⟨k0, v0⟩ := kv
    rw [List.map_cons] at h
    rw [dictGet, if_neg (fun hc : k0 = k => h (hc ▸ List.mem_cons_self k0 (rest.map Prod.fst)))]
    exact ih (fun hm => h (List.mem_cons_of_mem k0 hm))

theorem dictGet_addUsage (u : List (String × Int)) (hu : (u.map Prod.fst).Nodup)
    (k : String) :
    ∀ t, dictGet (addUsage t u) k 0 = dictGet t k 0 + dictGet u k 0 := by
  induction u with
  | nil =>
    intro t
    simp [addUsage, dictGet]
  | cons kv rest ih =>
    intro t
    obtain ⟨k0, v0⟩ := kv
    simp at hu
    have step : addUsage t ((k0, v0) :: rest)
        = addUsage (dictSet t k0 (dictGet t k0 0 + v0)) rest := rfl
    rw [step, ih hu.2]
    rw [dictGet_dictSet]
    by_cases h : k0 = k
    · subst h
      have : dictGet rest k0 0 = 0 :=
        dictGet_not_mem rest k0 (by simpa using hu.1)
      simp [dictGet, this]
    · simp [dictGet, h]

theorem dictGet_total_usage (batches : List (Option (List (String × Int))))
    (h : ∀ u ∈ batches, ∀ usage, u = some usage → (usage.map Prod.fst).Nodup)
    (k : String) :
    ∀ t, dictGet (total_usage_loop t batches) k 0
      = dictGet t k 0 + (batches.map (usageAt k)).sum := by
  induction batches with
  | nil =>
    intro t
    simp [total_usage_loop]
  | cons u rest ih =>
    intro t
    have hrest : ∀ u' ∈ rest, ∀ usage, u' = some usage → (usage.map Prod.fst).Nodup :=
      fun u' hm usage he => h u' (List.mem_cons_of_mem u hm) usage he
    match u with
    | none =>
      rw [total_usage_loop, ih hrest]
      simp [usageAt]
    | some usage =>
      rw [total_usage_loop, ih hrest]
      rw [dictGet_addUsage usage (h (some usage) (List.mem_cons_self _ _) usage rfl) k]
      simp [usageAt]
      ring

/-- Claim C10: `total_usage` is the key-wise sum of the present usage maps
(absent maps contribute nothing and cause no error), and the two example
batches `{"prompt": 100}` and `{"prompt": 150, "completion": 75}` plus an
absent map aggregate to `{"prompt": 250, "completion": 75}`. The hypothesis
states that each usage map has unique keys, which a Python dict guarantees. -/
theorem total_usage_keywise_sum (batches : List (Option (List (String × Int))))
    (h : ∀ u ∈ batches, ∀ usage, u = some usage → (usage.map Prod.fst).Nodup) :
    (∀ k, dictGet (total_usage batches) k 0 = (batches.map (usageAt k)).sum)
    ∧ total_usage [some [("prompt", 100)],
        some [("prompt", 150), ("completion", 75)], none]
      = [("prompt", 250), ("completion", 75)] := by
  constructor
  · intro k
    have := dictGet_total_usage batches h k []
    simpa [total_usage_eq_loop, dictGet] using this
  · rfl

theorem total_usage_keywise_sum_witness :
    (∀ u ∈ [some [("prompt", (100 : Int))], some [("prompt", 150), ("completion", 75)],
        (none : Option (List (String × Int)))],
      ∀ usage, u = some usage → (usage.map Prod.fst).Nodup)
    ∧ dictGet (total_usage [some [("prompt", 100)],
        some [("prompt", 150), ("completion", 75)], none]) "prompt" 0
      = ([some [("prompt", (100 : Int))], some [("prompt", 150), ("completion", 75)],
          none].map (usageAt "prompt")).sum :=
  ⟨by decide, (total_usage_keywise_sum _ (by decide)).1 "prompt"⟩

/-- Failure result built by `extract_pages`'s `except` clause:
`ExtractionResult(page=Page(page=pages_list[idx], width=0, height=0, texts=[]),
success=False, error=str(e))`. -/
def failedResult (p : Int) (e : String) : ExtractionResult :=
  { page := { page := p, width := 0, height := 0, texts := [] },
    success := false, error := some e }

/-- Outcome stored for request position `idx` by the parallel loop of
`BaseExtractor.extract_pages`: `future.result()` re-raises what
`extract_page(pages_list[idx])` raised, and the `except` clause converts it
into a failure result. A backend raising is modelled as `Except.error` with
the exception message. -/
def handlePage (extract_page : Int → Except String ExtractionResult)
    (pages_list : List Int) (idx : Nat) : ExtractionResult :=
  match extract_page (pages_list.getD idx 0) with
  | .ok r => r
  | .error e => failedResult (pages_list.getD idx 0) e

/-- The `as_completed` loop of `extract_pages`: a pre-sized slot array
`[None] * len(pages_list)` filled at position `future_to_idx[future]` in
completion order `order` (an arbitrary permutation of the submitted
positions), never appended in completion order. -/
def fillSlots (extract_page : Int → Except String ExtractionResult)
    (pages_list : List Int) (order : List Nat) : List (Option ExtractionResult) :=
  order.foldl
    (fun results idx => results.set idx (some (handlePage extract_page pages_list idx)))
    (List.replicate pages_list.length none)

/-- The sequential branch of `extract_pages`:
`[self.extract_page(n) for n in pages_list]` — exceptions are NOT caught
here and propagate (the whole call fails with the first raised message). -/
def extract_sequential (extract_page : Int → Except String ExtractionResult) :
    List Int → Except String (List ExtractionResult)
  | [] => .ok []
  | p :: ps =>
    match extract_page p with
    | .error e => .error e
    | .ok r =>
      match extract_sequential extract_page ps with
      | .error e => .error e
      | .ok rs => .ok (r :: rs)

/-- Embeds `BaseExtractor.extract_pages` with an explicit page list (the
`pages is None` default fills in `range(page_count)` before this point).
`max_workers ≤ 1` or fewer than two pages runs the sequential branch;
otherwise the worker pool fills a pre-sized result array in an arbitrary
completion order `order`. The `executor` choice ("thread"/"process") only
selects the pool class and does not change the orchestration logic, so it
is carried but unused. Sequential results are injected into the slot type
with `some`. -/
def extract_pages (extract_page : Int → Except String ExtractionResult)
    (pages_list : List Int) (max_workers : Int) (_executor : ExecutorType)
    (order : List Nat) : Except String (List (Option ExtractionResult)) :=
  if max_workers ≤ 1 ∨ pages_list.length ≤ 1 then
    (extract_sequential extract_page pages_list).map (List.map some)
  else
    .ok (fillSlots extract_page pages_list order)

theorem foldl_set_length (f : Nat → Option ExtractionResult) :
    ∀ (order : List Nat) (init : List (Option ExtractionResult)),
      (order.foldl (fun results idx => results.set idx (f idx)) init).length
        = init.length := by
  intro order
  induction order with
  | nil => intro init; rfl
  | cons idx rest ih =>
    intro init
    rw [List.foldl_cons, ih, List.length_set]

theorem foldl_set_getD (f : Nat → Option ExtractionResult) :
    ∀ (order : List Nat) (init : List (Option ExtractionResult)) (i : Nat),
      i < init.length →
      (order.foldl (fun results idx => results.set idx (f idx)) init).getD i none
        = if i ∈ order then f i else init.getD i none := by
  intro order
  induction order with
  | nil =>
    intro init i hi
    simp
  | cons idx rest ih =>
    intro init i hi
    rw [List.foldl_cons, ih (init.set idx (f idx)) i (by rwa [List.length_set])]
    by_cases hrest : i ∈ rest
    · rw [if_pos hrest, if_pos (List.mem_cons_of_mem idx hrest)]
    · rw [if_neg hrest]
      by_cases hidx : i = idx
      · subst hidx
        rw [if_pos (List.mem_cons_self i rest)]
        rw [List.getD_eq_getElem?_getD, List.getElem?_set_self (by omega)]
        rfl
      · rw [if_neg (by simp [hidx, hrest])]
        rw [List.getD_eq_getElem?_getD, List.getElem?_set_ne (fun hc => hidx hc.symm)]
        rw [List.getD_eq_getElem?_getD]

theorem fillSlots_length (extract_page : Int → Except String ExtractionResult)
    (pages_list : List Int) (order : List Nat) :
    (fillSlots extract_page pages_list order).length = pages_list.length := by
  rw [fillSlots, foldl_set_length, List.length_replicate]

theorem fillSlots_getD (extract_page : Int → Except String ExtractionResult)
    (pages_list : List Int) (order : List Nat)
    (horder : ∀ j, j < pages_list.length → j ∈ order)
    (i : Nat) (hi : i < pages_list.length) :
    (fillSlots extract_page pages_list order).getD i none
      = some (handlePage extract_page pages_list i) := by
  rw [fillSlots, foldl_set_getD _ order _ i (by rwa [List.length_replicate])]
  rw [if_pos (horder i hi)]

theorem extract_sequential_ok (extract_page : Int → Except String ExtractionResult) :
    ∀ (pages_list : List Int) (rs : List ExtractionResult),
      extract_sequential extract_page pages_list = .ok rs →
      rs.length = pages_list.length
      ∧ ∀ i, i < pages_list.length →
          rs.getD i (failedResult 0 "") = handlePage extract_page pages_list i := by
  intro pages_list
  induction pages_list with
  | nil =>
    intro rs h
    rw [extract_sequential] at h
    cases h
    exact ⟨rfl, fun i hi => absurd hi (by simp)⟩
  | cons p ps ih =>
    intro rs h
    rw [extract_sequential] at h
    match he : extract_page p with
    | .error e => rw [he] at h; cases h
    | .ok r =>
      rw [he] at h
      match hs : extract_sequential extract_page ps with
      | .error e => rw [hs] at h; cases h
      | .ok rs' =>
        rw [hs] at h
        cases h
        obtain ⟨hlen, hget⟩ := ih rs' hs
        refine ⟨by simp [hlen], ?_⟩
        intro i hi
        match i with
        | 0 =>
          rw [List.getD_cons_zero]
          rw [handlePage]
          simp [he]
        | i + 1 =>
          rw [List.getD_cons_succ]
          rw [hget i (by simpa using Nat.lt_of_succ_lt_succ hi)]
          rw [handlePage, handlePage]
          rfl

theorem extract_sequential_error (extract_page : Int → Except String ExtractionResult) :
    ∀ (pages_list : List Int) (i : Nat) (e : String),
      i < pages_list.length →
      (∀ j, j < i → ∃ r, extract_page (pages_list.getD j 0) = .ok r) →
      extract_page (pages_list.getD i 0) = .error e →
      extract_sequential extract_page pages_list = .error e := by
  intro pages_list
  induction pages_list with
  | nil =>
    intro i e hi
    exact absurd hi (by simp)
  | cons p ps ih =>
    intro i e hi hok herr
    match i with
    | 0 =>
      rw [List.getD_cons_zero] at herr
      rw [extract_sequential, herr]
    | i + 1 =>
      obtain ⟨r, hr⟩ := hok 0 (by omega)
      rw [List.getD_cons_zero] at hr
      rw [extract_sequential, hr]
      rw [List.getD_cons_succ] at herr
      rw [ih i e (by simpa using Nat.lt_of_succ_lt_succ hi)
        (fun j hj => by
          obtain ⟨r', hr'⟩ := hok (j + 1) (by omega)
          rw [List.getD_cons_succ] at hr'
          exact ⟨r', hr'⟩)
        herr]

/-- Shared characterization of a successful `extract_pages` call: one slot
per requested position, the `i`-th slot holding the outcome of extracting
the `i`-th requested page index — independent of the completion order and
of the executor type. -/
theorem extract_pages_ok_getD (extract_page : Int → Except String ExtractionResult)
    (pages_list : List Int) (max_workers : Int) (executor : ExecutorType)
    (order : List Nat) (horder : ∀ j, j < pages_list.length → j ∈ order)
    (results : List (Option ExtractionResult))
    (hok : extract_pages extract_page pages_list max_workers executor order
      = .ok results) :
    results.length = pages_list.length
    ∧ ∀ i, i < pages_list.length →
        results.getD i none = some (handlePage extract_page pages_list i) := by
  rw [extract_pages] at hok
  by_cases hseq : max_workers ≤ 1 ∨ pages_list.length ≤ 1
  · rw [if_pos hseq] at hok
    match hs : extract_sequential extract_page pages_list with
    | .error e => rw [hs] at hok; cases hok
    | .ok rs =>
      rw [hs] at hok
      cases hok
      obtain ⟨hlen, hget⟩ := extract_sequential_ok extract_page pages_list rs hs
      refine ⟨by simpa using hlen, ?_⟩
      intro i hi
      rw [List.getD_eq_getElem?_getD, List.getElem?_map]
      rw [List.getElem?_eq_getElem (by omega)]
      have := hget i hi
      rw [List.getD_eq_getElem?_getD, List.getElem?_eq_getElem (by omega)] at this
      simp at this
      simp [this]
  · rw [if_neg hseq] at hok
    cases hok
    exact ⟨fillSlots_length extract_page pages_list order,
      fun i hi => fillSlots_getD extract_page pages_list order horder i hi⟩

/-- Claim C1: for every backend and every requested index sequence
(duplicates and arbitrary orders included), a returning `extract_pages`
call yields one result per requested position, the `i`-th being the
outcome of extracting the `i`-th requested index — for every completion
order of the worker pool and both executor types alike, so ordering
follows request position, never completion order. -/
theorem extract_pages_order_preserved
    (extract_page : Int → Except String ExtractionResult)
    (pages_list : List Int) (max_workers : Int) (executor : ExecutorType)
    (order : List Nat) (horder : ∀ j, j < pages_list.length → j ∈ order)
    (results : List (Option ExtractionResult))
    (hok : extract_pages extract_page pages_list max_workers executor order
      = .ok results) :
    results.length = pages_list.length
    ∧ ∀ i, i < pages_list.length →
        results.getD i none = some (handlePage extract_page pages_list i) :=
  extract_pages_ok_getD extract_page pages_list max_workers executor order
    horder results hok

/-- A small concrete backend: page `n` yields a page of width `n`. -/
def demoBackend (p : Int) : Except String ExtractionResult :=
  .ok { page := { page := p, width := p, height := 100, texts := [] }, success := true }

theorem extract_pages_order_preserved_witness :
    (∀ j, j < [9, 0, 5, 3].length → j ∈ [2, 0, 3, 1])
    ∧ extract_pages demoBackend [9, 0, 5, 3] 4 ExecutorType.thread [2, 0, 3, 1]
        = .ok (fillSlots demoBackend [9, 0, 5, 3] [2, 0, 3, 1])
    ∧ ((fillSlots demoBackend [9, 0, 5, 3] [2, 0, 3, 1]).length = [9, 0, 5, 3].length
        ∧ ∀ i, i < [9, 0, 5, 3].length →
          (fillSlots demoBackend [9, 0, 5, 3] [2, 0, 3, 1]).getD i none
            = some (handlePage demoBackend [9, 0, 5, 3] i)) :=
  ⟨by decide, by rw [extract_pages, if_neg (by decide)],
    extract_pages_order_preserved demoBackend [9, 0, 5, 3] 4 ExecutorType.thread
      [2, 0, 3, 1] (by decide) _ (by rw [extract_pages, if_neg (by decide)])⟩

/-- A backend raising on every page, with message `"boom"`. -/
def boomBackend (_ : Int) : Except String ExtractionResult := .error "boom"

/-- Counterexample to claim C2 as stated: with `max_workers = 5` but a
single requested page, `extract_pages` runs the sequential branch, which
has no `try/except`, so the backend's exception propagates out of
`extract_pages` (the call fails with the raised message) instead of being
converted into a failed per-index result list. -/
theorem extract_pages_exception_propagates :
    extract_pages boomBackend [0] 5 ExecutorType.thread [0]
      = Except.error "boom" := by
  rw [extract_pages, if_pos (by decide)]
  rfl

/-- Claim C2 (amended): when `max_workers > 1` and at least two pages are
requested, an exception raised by `extract_page` for a request position is
caught at that position only and converted into
`ExtractionResult{success=false, error=message, page=empty zeroed page at
that index}`, positions whose extraction succeeds keep their backend
results, and no exception propagates (the call returns `ok` for every
completion order); otherwise extraction is sequential and the first raised
exception propagates out of `extract_pages`. -/
theorem extract_pages_fault_isolation
    (extract_page : Int → Except String ExtractionResult)
    (pages_list : List Int) (max_workers : Int) (executor : ExecutorType)
    (order : List Nat) (horder : ∀ j, j < pages_list.length → j ∈ order)
    (hpar : 1 < max_workers ∧ 2 ≤ pages_list.length) :
    (extract_pages extract_page pages_list max_workers executor order
        = .ok (fillSlots extract_page pages_list order)
      ∧ (∀ i, i < pages_list.length →
          ∀ e, extract_page (pages_list.getD i 0) = .error e →
            (fillSlots extract_page pages_list order).getD i none
              = some (failedResult (pages_list.getD i 0) e))
      ∧ (∀ i, i < pages_list.length →
          ∀ r, extract_page (pages_list.getD i 0) = .ok r →
            (fillSlots extract_page pages_list order).getD i none = some r))
    ∧ (∀ (pl : List Int) (mw : Int) (i : Nat) (e : String),
        (mw ≤ 1 ∨ pl.length ≤ 1) → i < pl.length →
        (∀ j, j < i → ∃ r, extract_page (pl.getD j 0) = .ok r) →
        extract_page (pl.getD i 0) = .error e →
        extract_pages extract_page pl mw executor order = .error e) := by
  constructor
  · refine ⟨?_, ?_, ?_⟩
    · rw [extract_pages, if_neg (by omega)]
    · intro i hi e he
      rw [fillSlots_getD extract_page pages_list order horder i hi]
      rw [handlePage, he]
    · intro i hi r hr
      rw [fillSlots_getD extract_page pages_list order horder i hi]
      rw [handlePage, hr]
  · intro pl mw i e hseq hi hok herr
    rw [extract_pages, if_pos hseq]
    rw [extract_sequential_error extract_page pl i e hi hok herr]
    rfl

/-- A backend raising exactly on page 2 with message `"Simulated error"`. -/
def failAt2Backend (p : Int) : Except String ExtractionResult :=
  if p = 2 then .error "Simulated error"
  else .ok { page := { page := p, width := 10, height := 10, texts := [] }, success := true }

theorem extract_pages_fault_isolation_witness :
    (∀ j, j < [0, 1, 2, 3, 4].length → j ∈ [4, 2, 0, 1, 3])
    ∧ (1 < (3 : Int) ∧ 2 ≤ [0, 1, 2, 3, 4].length)
    ∧ ((fillSlots failAt2Backend [0, 1, 2, 3, 4] [4, 2, 0, 1, 3]).getD 2 none
        = some (failedResult 2 "Simulated error")) :=
  ⟨by decide, by decide,
    (extract_pages_fault_isolation failAt2Backend [0, 1, 2, 3, 4] 3
      ExecutorType.thread [4, 2, 0, 1, 3] (by decide) ⟨by decide, by decide⟩).1.2.1
      2 (by decide) "Simulated error" rfl⟩

/-- Modelled from the spec: `xtra/coordinates.py` (`CoordinateConverter`) is
not among the provided sources, so the conversion basis of spec §4.2 is
embedded from its words — every conversion routes through points:
`pixels → points = pixels * 72 / dpi`, `inches → points = inches * 72`,
`normalized → points = normalized * page_dimension_in_points`. The page
dimension is the points-space one, passed explicitly as `pageDimPts`
(the spec notes normalized round-trips require this reference size). -/
def toPoints : CoordinateUnit → ℚ → ℚ → ℚ → ℚ
  | .points, _, _, v => v
  | .pixels, dpi, _, v => v * 72 / dpi
  | .inches, _, _, v => v * 72
  | .normalized, _, pageDimPts, v => v * pageDimPts

/-- Modelled from the spec (see `toPoints`): the inverse leg,
`points → pixels = points * dpi / 72`, `points → inches = points / 72`,
`points → normalized = points / page_dimension_in_points`. -/
def fromPoints : CoordinateUnit → ℚ → ℚ → ℚ → ℚ
  | .points, _, _, p => p
  | .pixels, dpi, _, p => p * dpi / 72
  | .inches, _, _, p => p / 72
  | .normalized, _, pageDimPts, p => p / pageDimPts

/-- Modelled from the spec: one scalar converted from unit `a` to unit `b`
through the points reference. -/
def convert_value (a b : CoordinateUnit) (dpi pageDimPts v : ℚ) : ℚ :=
  fromPoints b dpi pageDimPts (toPoints a dpi pageDimPts v)

/-- Modelled from the spec: a bbox converted coordinate-wise, x against the
page width in points and y against the page height in points. -/
def convert_bbox (a b : CoordinateUnit) (dpi wPts hPts : ℚ) (bb : BBox) : BBox :=
  { x0 := convert_value a b dpi wPts bb.x0
    y0 := convert_value a b dpi hPts bb.y0
    x1 := convert_value a b dpi wPts bb.x1
    y1 := convert_value a b dpi hPts bb.y1 }

/-- Modelled from the spec: `CoordinateConverter.convert_page` converts the
page width/height and every text block's bbox consistently, producing a new
page (blocks' text, rotation, confidence and font are untouched). -/
def convert_page (a b : CoordinateUnit) (dpi wPts hPts : ℚ) (pg : Page) : Page :=
  { pg with
    width := convert_value a b dpi wPts pg.width
    height := convert_value a b dpi hPts pg.height
    texts := pg.texts.map (fun t => { t with bbox := convert_bbox a b dpi wPts hPts t.bbox }) }

/-- Embeds `BaseExtractor._convert_page`: `if source_unit == self.output_unit:
return page` (identity, no arithmetic); otherwise construct a converter and
convert (that branch uses the spec-modelled `convert_page`). -/
def _convert_page (output_unit source_unit : CoordinateUnit) (dpi wPts hPts : ℚ)
    (page : Page) : Page :=
  if source_unit = output_unit then page
  else convert_page source_unit output_unit dpi wPts hPts page

theorem toPoints_fromPoints (b : CoordinateUnit) (dpi d p : ℚ)
    (hdpi : dpi ≠ 0) (hd : d ≠ 0) :
    toPoints b dpi d (fromPoints b dpi d p) = p := by
  cases b with
  | points => rfl
  | pixels =>
    simp only [toPoints, fromPoints]
    field_simp
  | inches =>
    simp only [toPoints, fromPoints]
    field_simp
  | normalized =>
    simp only [toPoints, fromPoints]
    field_simp

theorem fromPoints_toPoints (a : CoordinateUnit) (dpi d v : ℚ)
    (hdpi : dpi ≠ 0) (hd : d ≠ 0) :
    fromPoints a dpi d (toPoints a dpi d v) = v := by
  cases a with
  | points => rfl
  | pixels =>
    simp only [toPoints, fromPoints]
    field_simp
  | inches =>
    simp only [toPoints, fromPoints]
    field_simp
  | normalized =>
    simp only [toPoints, fromPoints]
    field_simp

theorem convert_value_round_trip (a b : CoordinateUnit) (dpi d v : ℚ)
    (hdpi : dpi ≠ 0) (hd : d ≠ 0) :
    convert_value b a dpi d (convert_value a b dpi d v) = v := by
  rw [convert_value, convert_value]
  rw [toPoints_fromPoints b dpi d _ hdpi hd]
  exact fromPoints_toPoints a dpi d v hdpi hd

theorem convert_page_mk (a b : CoordinateUnit) (dpi wPts hPts : ℚ)
    (p : Int) (w h : ℚ) (ts : List TextBlock) :
    convert_page a b dpi wPts hPts { page := p, width := w, height := h, texts := ts }
      = { page := p, width := convert_value a b dpi wPts w,
          height := convert_value a b dpi hPts h,
          texts := ts.map
            (fun t => { t with bbox := convert_bbox a b dpi wPts hPts t.bbox }) } := rfl

theorem convert_page_round_trip (a b : CoordinateUnit) (dpi wPts hPts : ℚ)
    (pg : Page) (hdpi : dpi ≠ 0) (hw : wPts ≠ 0) (hh : hPts ≠ 0) :
    convert_page b a dpi wPts hPts (convert_page a b dpi wPts hPts pg) = pg := by
  have hv : ∀ d v, d ≠ 0 → convert_value b a dpi d (convert_value a b dpi d v) = v :=
    fun d v hd => convert_value_round_trip a b dpi d v hdpi hd
  have hb : ∀ bb : BBox,
      convert_bbox b a dpi wPts hPts (convert_bbox a b dpi wPts hPts bb) = bb := by
    intro bb
    cases bb with
    | mk x0 y0 x1 y1 =>
      simp only [convert_bbox]
      rw [hv wPts x0 hw, hv hPts y0 hh, hv wPts x1 hw, hv hPts y1 hh]
  have ht : ∀ t : TextBlock,
      ((fun t => { t with bbox := convert_bbox b a dpi wPts hPts t.bbox }) ∘
        (fun t => { t with bbox := convert_bbox a b dpi wPts hPts t.bbox })) t = t := by
    intro t
    show { t with
      bbox := convert_bbox b a dpi wPts hPts (convert_bbox a b dpi wPts hPts t.bbox) } = t
    rw [hb t.bbox]
  cases pg with
  | mk p w h ts =>
    rw [convert_page_mk, convert_page_mk]
    rw [hv wPts w hw, hv hPts h hh, List.map_map]
    rw [show ((fun t : TextBlock => { t with bbox := convert_bbox b a dpi wPts hPts t.bbox }) ∘
          (fun t : TextBlock => { t with bbox := convert_bbox a b dpi wPts hPts t.bbox })) = id
        from funext ht, List.map_id]

/-- Claim C3: for positive dpi and positive points-space page dimensions,
converting a page from unit `a` to unit `b` and back reproduces the page
width, height, and every bbox coordinate within 0.01 absolute tolerance in
unit `a` (the rational-arithmetic model round-trips exactly, hence within
any tolerance), for every ordered pair of the four supported units. -/
theorem convert_page_round_trip_tolerance (a b : CoordinateUnit)
    (dpi wPts hPts : ℚ) (pg : Page)
    (hdpi : 0 < dpi) (hw : 0 < wPts) (hh : 0 < hPts) :
    |(convert_page b a dpi wPts hPts (convert_page a b dpi wPts hPts pg)).width
        - pg.width| ≤ 1 / 100
    ∧ |(convert_page b a dpi wPts hPts (convert_page a b dpi wPts hPts pg)).height
        - pg.height| ≤ 1 / 100
    ∧ (convert_page b a dpi wPts hPts (convert_page a b dpi wPts hPts pg)).texts.length
        = pg.texts.length
    ∧ ∀ i, i < pg.texts.length →
        ((convert_page b a dpi wPts hPts (convert_page a b dpi wPts hPts pg)).texts.getD i
            default).bbox.x0 = (pg.texts.getD i default).bbox.x0
        ∧ ((convert_page b a dpi wPts hPts (convert_page a b dpi wPts hPts pg)).texts.getD i
            default).bbox.y0 = (pg.texts.getD i default).bbox.y0
        ∧ ((convert_page b a dpi wPts hPts (convert_page a b dpi wPts hPts pg)).texts.getD i
            default).bbox.x1 = (pg.texts.getD i default).bbox.x1
        ∧ ((convert_page b a dpi wPts hPts (convert_page a b dpi wPts hPts pg)).texts.getD i
            default).bbox.y1 = (pg.texts.getD i default).bbox.y1 := by
  rw [convert_page_round_trip a b dpi wPts hPts pg
    (ne_of_gt hdpi) (ne_of_gt hw) (ne_of_gt hh)]
  refine ⟨by simp, by simp, rfl, ?_⟩
  intro i hi
  exact ⟨rfl, rfl, rfl, rfl⟩

/-- A sample page for the round-trip witness: US Letter in pixels at 150
dpi, one text block. -/
def demoPage : Page :=
  { page := 0, width := 1275, height := 1650,
    texts := [{ text := "hello",
                bbox := { x0 := 100, y0 := 200, x1 := 300, y1 := 250 },
                rotation := 0 }] }

theorem convert_page_round_trip_tolerance_witness :
    (0 < (150 : ℚ) ∧ 0 < (612 : ℚ) ∧ 0 < (792 : ℚ))
    ∧ |(convert_page CoordinateUnit.normalized CoordinateUnit.pixels 150 612 792
        (convert_page CoordinateUnit.pixels CoordinateUnit.normalized 150 612 792
          demoPage)).width - demoPage.width| ≤ 1 / 100 :=
  ⟨⟨by norm_num, by norm_num, by norm_num⟩,
    (convert_page_round_trip_tolerance CoordinateUnit.pixels CoordinateUnit.normalized
      150 612 792 demoPage (by norm_num) (by norm_num) (by norm_num)).1⟩

/-- Claim C8: converting a page whose source unit equals the output unit
returns the page unchanged — the same object, so width, height and every
bbox coordinate are bitwise-identical, with no arithmetic applied. -/
theorem convert_page_identity (output_unit source_unit : CoordinateUnit)
    (dpi wPts hPts : ℚ) (page : Page) (h : source_unit = output_unit) :
    _convert_page output_unit source_unit dpi wPts hPts page = page
    ∧ (_convert_page output_unit source_unit dpi wPts hPts page).width = page.width
    ∧ (_convert_page output_unit source_unit dpi wPts hPts page).height = page.height
    ∧ (_convert_page output_unit source_unit dpi wPts hPts page).texts = page.texts := by
  have he : _convert_page output_unit source_unit dpi wPts hPts page = page := by
    rw [_convert_page, if_pos h]
  exact ⟨he, by rw [he], by rw [he], by rw [he]⟩

theorem convert_page_identity_witness :
    (CoordinateUnit.points = CoordinateUnit.points)
    ∧ _convert_page CoordinateUnit.points CoordinateUnit.points 150 612 792 demoPage
        = demoPage :=
  ⟨rfl, (convert_page_identity CoordinateUnit.points CoordinateUnit.points
    150 612 792 demoPage rfl).1⟩

/-- Python `min(iterable)`: left fold of binary `min` from the first
element; junk value 0 on the empty list, where Python raises (callers
guard nonemptiness). -/
def listMin (l : List ℚ) : ℚ :=
  match l with
  | [] => 0
  | x :: xs => xs.foldl min x

/-- Python `max(iterable)`, analogously. -/
def listMax (l : List ℚ) : ℚ :=
  match l with
  | [] => 0
  | x :: xs => xs.foldl max x

/-- Embeds `math.atan2(y, x)`: the standard piecewise definition over `Real.arctan`,
with `atan2 0 0 = 0` as in Python. -/
noncomputable def atan2 (y x : ℝ) : ℝ :=
  if 0 < x then Real.arctan (y / x)
  else if x < 0 ∧ 0 ≤ y then Real.arctan (y / x) + Real.pi
  else if x < 0 then Real.arctan (y / x) - Real.pi
  else if 0 < y then Real.pi / 2
  else if y < 0 then -(Real.pi / 2)
  else 0

/-- Embeds `math.degrees(math.atan2(dy, dx))` on rational inputs. -/
noncomputable def atan2deg (dy dx : ℚ) : ℝ :=
  atan2 (dy : ℝ) (dx : ℝ) * 180 / Real.pi

/-- Embeds `AzureDocumentIntelligenceAdapter._polygon_to_bbox_and_rotation`: flat
`[x0,y0,x1,y1,x2,y2,x3,y3]` input; fewer than 8 values returns the zero
bbox and rotation 0.0; otherwise the enclosing min/max over the first four
corner points and `atan2` of the first edge. -/
noncomputable def azure_polygon_to_bbox_and_rotation (polygon : List ℚ) : BBox × ℝ :=
  if polygon.length < 8 then ({ x0 := 0, y0 := 0, x1 := 0, y1 := 0 }, 0)
  else
    let points : List (ℚ × ℚ) :=
      [(polygon.getD 0 0, polygon.getD 1 0), (polygon.getD 2 0, polygon.getD 3 0),
       (polygon.getD 4 0, polygon.getD 5 0), (polygon.getD 6 0, polygon.getD 7 0)]
    let xs := points.map Prod.fst
    let ys := points.map Prod.snd
    let dx := (polygon.getD 2 0) - (polygon.getD 0 0)
    let dy := (polygon.getD 3 0) - (polygon.getD 1 0)
    ({ x0 := listMin xs, y0 := listMin ys, x1 := listMax xs, y1 := listMax ys },
      atan2deg dy dx)

/-- Embeds `PaddleOcrExtractor._polygon_to_bbox_and_rotation`: point-list input
with NO degenerate guard — `polygon[1]` on a 0- or 1-point list raises
(`none` here); otherwise min/max over all points, and `atan2` of the first
edge guarded to 0.0 on a zero vector. -/
noncomputable def paddle_polygon_to_bbox_and_rotation (polygon : List (ℚ × ℚ)) :
    Option (BBox × ℝ) :=
  match polygon with
  | p0 :: p1 :: _ =>
    let xs := polygon.map Prod.fst
    let ys := polygon.map Prod.snd
    let dx := p1.1 - p0.1
    let dy := p1.2 - p0.2
    some ({ x0 := listMin xs, y0 := listMin ys, x1 := listMax xs, y1 := listMax ys },
      if dx ≠ 0 ∨ dy ≠ 0 then atan2deg dy dx else 0)
  | _ => none

/-- Embeds `OcrExtractor._polygon_to_bbox_and_rotation` (EasyOCR): point-list
input, same min/max and first-edge `atan2`, no zero-vector guard (Python's
`math.atan2(0, 0)` is 0.0 anyway) and no degenerate guard. -/
noncomputable def easyocr_polygon_to_bbox_and_rotation (polygon : List (ℚ × ℚ)) :
    Option (BBox × ℝ) :=
  match polygon with
  | p0 :: p1 :: _ =>
    let xs := polygon.map Prod.fst
    let ys := polygon.map Prod.snd
    some ({ x0 := listMin xs, y0 := listMin ys, x1 := listMax xs, y1 := listMax ys },
      atan2deg (p1.2 - p0.2) (p1.1 - p0.1))
  | _ => none

theorem atan2_zero_pos (x : ℝ) (hx : 0 < x) : atan2 0 x = 0 := by
  rw [atan2, if_pos hx]
  rw [zero_div, Real.arctan_zero]

theorem atan2deg_zero (dx : ℚ) (hx : 0 < dx) : atan2deg 0 dx = 0 := by
  rw [atan2deg]
  push_cast
  rw [atan2_zero_pos _ (by exact_mod_cast hx)]
  rw [zero_mul, zero_div]

/-- Counterexample to claim C4 as stated: a 1-point input to the PaddleOCR
extractor's point-list geometry normalizer does not return the
`BBox(0,0,0,0)` / rotation-0 fallback — `polygon[1]` raises `IndexError`
(modelled as `none`: no `(BBox, rotation)` pair is returned at all). -/
theorem paddle_degenerate_raises :
    paddle_polygon_to_bbox_and_rotation [(5, 5)] = none := rfl

/-- Claim C4 (amended): the flat-form normalizer (Azure adapter) returns
`BBox(0,0,0,0)` and rotation 0.0, without exception, for every input of
fewer than 8 flat values; the point-list normalizer of the PaddleOCR
extractor has no such fallback — an input of fewer than 2 points raises
(`IndexError` on `polygon[1]`), and a 2-point input is processed like a
quadrilateral's first edge rather than returning the fallback. -/
theorem degenerate_polygon_fallback (polygon : List ℚ) (hlen : polygon.length < 8) :
    azure_polygon_to_bbox_and_rotation polygon = ({ x0 := 0, y0 := 0, x1 := 0, y1 := 0 }, 0)
    ∧ (∀ pts : List (ℚ × ℚ), pts.length < 2 →
        paddle_polygon_to_bbox_and_rotation pts = none)
    ∧ paddle_polygon_to_bbox_and_rotation [(1, 2), (3, 4)]
        = some ({ x0 := 1, y0 := 2, x1 := 3, y1 := 4 }, atan2deg 2 2) := by
  refine ⟨?_, ?_, ?_⟩
  · rw [azure_polygon_to_bbox_and_rotation, if_pos hlen]
  · intro pts hpts
    match pts with
    | [] => rfl
    | [p] => rfl
    | p :: q :: rest =>
      rw [List.length_cons, List.length_cons] at hpts
      exact absurd hpts (by omega)
  · rw [paddle_polygon_to_bbox_and_rotation]
    simp only [listMin, listMax, List.map_cons, List.map_nil, List.foldl]
    norm_num

theorem degenerate_polygon_fallback_witness :
    ([(10 : ℚ), 10].length < 8)
    ∧ azure_polygon_to_bbox_and_rotation [10, 10]
        = ({ x0 := 0, y0 := 0, x1 := 0, y1 := 0 }, 0) :=
  ⟨by decide, (degenerate_polygon_fallback [10, 10] (by decide)).1⟩

/-- Claim C7: for every quadrilateral given as 4 corner points, both the
flat-form (Azure) and point-list (EasyOCR) normalizers return the enclosing
axis-aligned box — min/max over the four corners — and rotation
`atan2(dy, dx)` in degrees for the vector from corner 0 to corner 1; in
particular the horizontal rectangle `[(10,10),(110,10),(110,30),(10,30)]`
yields bbox `(10,10,110,30)` and rotation 0.0 in both forms. -/
theorem polygon_bbox_rotation (p0 p1 p2 p3 : ℚ × ℚ) :
    azure_polygon_to_bbox_and_rotation [p0.1, p0.2, p1.1, p1.2, p2.1, p2.2, p3.1, p3.2]
      = ({ x0 := min (min (min p0.1 p1.1) p2.1) p3.1,
           y0 := min (min (min p0.2 p1.2) p2.2) p3.2,
           x1 := max (max (max p0.1 p1.1) p2.1) p3.1,
           y1 := max (max (max p0.2 p1.2) p2.2) p3.2 },
         atan2deg (p1.2 - p0.2) (p1.1 - p0.1))
    ∧ easyocr_polygon_to_bbox_and_rotation [p0, p1, p2, p3]
      = some ({ x0 := min (min (min p0.1 p1.1) p2.1) p3.1,
                y0 := min (min (min p0.2 p1.2) p2.2) p3.2,
                x1 := max (max (max p0.1 p1.1) p2.1) p3.1,
                y1 := max (max (max p0.2 p1.2) p2.2) p3.2 },
              atan2deg (p1.2 - p0.2) (p1.1 - p0.1))
    ∧ azure_polygon_to_bbox_and_rotation [10, 10, 110, 10, 110, 30, 10, 30]
      = ({ x0 := 10, y0 := 10, x1 := 110, y1 := 30 }, 0)
    ∧ easyocr_polygon_to_bbox_and_rotation [(10, 10), (110, 10), (110, 30), (10, 30)]
      = some ({ x0 := 10, y0 := 10, x1 := 110, y1 := 30 }, 0) := by
  have hconcrete : atan2deg (10 - 10) (110 - 10) = 0 := by
    norm_num
    exact atan2deg_zero 100 (by norm_num)
  refine ⟨?_, ?_, ?_, ?_⟩
  · rw [azure_polygon_to_bbox_and_rotation, if_neg (by simp)]
    simp only [listMin, listMax, List.map_cons, List.map_nil, List.foldl, List.getD]
    rfl
  · rw [easyocr_polygon_to_bbox_and_rotation]
    simp only [listMin, listMax, List.map_cons, List.map_nil, List.foldl]
  · rw [azure_polygon_to_bbox_and_rotation, if_neg (by simp)]
    simp only [listMin, listMax, List.map_cons, List.map_nil, List.foldl, List.getD]
    norm_num
    exact atan2deg_zero 100 (by norm_num)
  · rw [easyocr_polygon_to_bbox_and_rotation]
    simp only [listMin, listMax, List.map_cons, List.map_nil, List.foldl]
    norm_num
    exact atan2deg_zero 100 (by norm_num)

/-- A Python `str.strip()` whitespace character (the ASCII ones). -/
def isPySpace (c : Char) : Bool :=
  c = ' ' || c = '\t' || c = '\n' || c = '\r' || c = '\x0b' || c = '\x0c'

/-- Python `str.strip()`: remove leading and trailing whitespace. -/
def pyStrip (s : String) : String :=
  String.mk (((s.data.dropWhile isPySpace).reverse.dropWhile isPySpace).reverse)

/-- Embeds `xtra.extractors.character_mergers.CharInfo`; the `bbox` 4-tuple
`(x0, y0, x1, y1)` is flattened into four fields. -/
structure CharInfo where
  char : String
  x0 : ℚ
  y0 : ℚ
  x1 : ℚ
  y1 : ℚ
  rotation : ℚ
  index : Nat
deriving DecidableEq, Inhabited

/-- Embeds `BasicLineMerger._create_text_block`: `None` on an empty member list or
when the joined text strips to empty; otherwise the enclosing min/max box
over the members' native boxes, flipped from bottom-up to top-down Y
against `page_height`, rotation and font from the first member. The font
lookup function stands for `_extract_font_info(textpage, ·)`. -/
def _create_text_block (font_lookup : Nat → Option FontInfo) (page_height : ℚ)
    (chars : List CharInfo) : Option TextBlock :=
  match chars with
  | [] => none
  | c0 :: _ =>
    let text := pyStrip (String.join (chars.map (fun c => c.char)))
    if text = "" then none
    else
      some { text := text,
             bbox := { x0 := listMin (chars.map (fun c => c.x0)),
                       y0 := page_height - listMax (chars.map (fun c => c.y1)),
                       x1 := listMax (chars.map (fun c => c.x1)),
                       y1 := page_height - listMin (chars.map (fun c => c.y0)) },
             rotation := c0.rotation,
             confidence := none,
             font_info := font_lookup c0.index }

/-- Embeds `BasicLineMerger._is_new_block`: `False` without a previous character,
else `abs(curr.bbox[1] - prev.bbox[1]) > line_gap_threshold`. -/
def _is_new_block (line_gap_threshold : ℚ) (prev : Option CharInfo)
    (curr : CharInfo) : Bool :=
  match prev with
  | none => false
  | some p => decide (line_gap_threshold < |curr.y0 - p.y0|)

/-- The block-finalizing step of `BasicLineMerger.merge`:
`if block and block.text.strip(): blocks.append(block)` (an empty
`current_chars` yields no block, matching the `if current_chars:` guard). -/
def flushBlock (font_lookup : Nat → Option FontInfo) (page_height : ℚ)
    (blocks : List TextBlock) (current_chars : List CharInfo) : List TextBlock :=
  match _create_text_block font_lookup page_height current_chars with
  | some b => if pyStrip b.text = "" then blocks else blocks ++ [b]
  | none => blocks

/-- The character loop of `BasicLineMerger.merge`, with its state
`(blocks, current_chars, prev_char)` made explicit, plus the trailing
flush. -/
def mergeLoop (th : ℚ) (font_lookup : Nat → Option FontInfo) (page_height : ℚ) :
    List CharInfo → List TextBlock → List CharInfo → Option CharInfo → List TextBlock
  | [], blocks, current_chars, _ => flushBlock font_lookup page_height blocks current_chars
  | c :: rest, blocks, current_chars, prev =>
    if _is_new_block th prev c then
      mergeLoop th font_lookup page_height rest
        (flushBlock font_lookup page_height blocks current_chars) [c] (some c)
    else
      mergeLoop th font_lookup page_height rest blocks (current_chars ++ [c]) (some c)

/-- Embeds `BasicLineMerger.merge` (default `line_gap_threshold` is 5.0). -/
def basic_line_merger_merge (th : ℚ) (font_lookup : Nat → Option FontInfo)
    (page_height : ℚ) (chars : List CharInfo) : List TextBlock :=
  if chars.isEmpty then [] else mergeLoop th font_lookup page_height chars [] [] none

/-- Embeds `KeepCharacterMerger.merge`: one `TextBlock` per input character, text
taken verbatim (no trim filter), with the same coordinate flip and font
lookup applied individually. -/
def keep_character_merger_merge (font_lookup : Nat → Option FontInfo)
    (page_height : ℚ) (chars : List CharInfo) : List TextBlock :=
  chars.map (fun c =>
    { text := c.char,
      bbox := { x0 := c.x0, y0 := page_height - c.y1, x1 := c.x1, y1 := page_height - c.y0 },
      rotation := c.rotation,
      confidence := none,
      font_info := font_lookup c.index })

/-- Spec-side decomposition of a character stream into maximal runs of
consecutive characters whose vertical gap stays within the threshold: a
new run starts exactly when the gap exceeds it. -/
def splitRuns (th : ℚ) : List CharInfo → List (List CharInfo)
  | [] => []
  | [c] => [[c]]
  | c :: c' :: rest =>
    if |c'.y0 - c.y0| ≤ th then
      match splitRuns th (c' :: rest) with
      | [] => [[c]]
      | r :: rs => (c :: r) :: rs
    else
      [c] :: splitRuns th (c' :: rest)

/-- The block a finalized run contributes, if any: built by
`_create_text_block` and kept only when its trimmed text is nonempty. -/
def emitRun (font_lookup : Nat → Option FontInfo) (page_height : ℚ)
    (run : List CharInfo) : Option TextBlock :=
  match _create_text_block font_lookup page_height run with
  | some b => if pyStrip b.text = "" then none else some b
  | none => none

/-- The run decomposition as seen from a loop state: `current` is the open
run, `p` the previous character. -/
def runsFrom (th : ℚ) : List CharInfo → List CharInfo → CharInfo → List (List CharInfo)
  | [], current, _ => [current]
  | c :: rest, current, p =>
    if |c.y0 - p.y0| ≤ th then runsFrom th rest (current ++ [c]) c
    else current :: runsFrom th rest [c] c

theorem flushBlock_eq (font_lookup : Nat → Option FontInfo) (page_height : ℚ)
    (blocks : List TextBlock) (current_chars : List CharInfo) :
    flushBlock font_lookup page_height blocks current_chars
      = blocks ++ (emitRun font_lookup page_height current_chars).toList := by
  rw [flushBlock, emitRun]
  cases _create_text_block font_lookup page_height current_chars with
  | none => simp
  | some b =>
    by_cases hs : pyStrip b.text = ""
    · simp [hs]
    · simp [hs]

theorem mergeLoop_eq_runsFrom (th : ℚ) (font_lookup : Nat → Option FontInfo)
    (page_height : ℚ) :
    ∀ (rest : List CharInfo) (blocks : List TextBlock) (current : List CharInfo)
      (p : CharInfo),
      mergeLoop th font_lookup page_height rest blocks current (some p)
        = blocks ++ (runsFrom th rest current p).filterMap (emitRun font_lookup page_height) := by
  intro rest
  induction rest with
  | nil =>
    intro blocks current p
    rw [mergeLoop, runsFrom, List.filterMap]
    rw [flushBlock_eq]
    cases emitRun font_lookup page_height current with
    | none => simp [List.filterMap]
    | some b => simp [List.filterMap]
  | cons c rest ih =>
    intro blocks current p
    rw [mergeLoop, runsFrom]
    rw [_is_new_block]
    by_cases hg : |c.y0 - p.y0| ≤ th
    · rw [if_neg (by simpa using not_lt.mpr hg), if_pos hg]
      exact ih blocks (current ++ [c]) c
    · rw [if_pos (by simpa using not_le.mp hg), if_neg hg]
      rw [ih (flushBlock font_lookup page_height blocks current) [c] c]
      rw [flushBlock_eq]
      rw [List.filterMap_cons]
      cases emitRun font_lookup page_height current with
      | none => simp
      | some b => simp

theorem runsFrom_prepend (th : ℚ) :
    ∀ (rest : List CharInfo) (p : CharInfo) (pre cur : List CharInfo),
      runsFrom th rest (pre ++ cur) p
        = (pre ++ (runsFrom th rest cur p).headD []) :: (runsFrom th rest cur p).tail := by
  intro rest
  induction rest with
  | nil =>
    intro p pre cur
    rw [runsFrom, runsFrom]
    rfl
  | cons c rest ih =>
    intro p pre cur
    rw [runsFrom, runsFrom]
    by_cases hg : |c.y0 - p.y0| ≤ th
    · rw [if_pos hg, if_pos hg]
      rw [List.append_assoc pre cur [c]] at *
      exact ih c pre (cur ++ [c])
    · rw [if_neg hg, if_neg hg]
      rfl

theorem splitRuns_eq_runsFrom (th : ℚ) :
    ∀ (rest : List CharInfo) (c : CharInfo),
      splitRuns th (c :: rest) = runsFrom th rest [c] c := by
  intro rest
  induction rest with
  | nil =>
    intro c
    rw [splitRuns, runsFrom]
  | cons c' rest ih =>
    intro c
    rw [splitRuns, runsFrom]
    by_cases hg : |c'.y0 - c.y0| ≤ th
    · rw [if_pos hg, if_pos hg]
      rw [ih c']
      rw [runsFrom_prepend th rest c' [c] [c']]
      cases hr : runsFrom th rest [c'] c' with
      | nil => rfl
      | cons r rs => rfl
    · rw [if_neg hg, if_neg hg]
      rw [ih c']

theorem basic_merge_eq_splitRuns (th : ℚ) (font_lookup : Nat → Option FontInfo)
    (page_height : ℚ) (chars : List CharInfo) :
    basic_line_merger_merge th font_lookup page_height chars
      = (splitRuns th chars).filterMap (emitRun font_lookup page_height) := by
  match chars with
  | [] => rfl
  | c :: rest =>
    rw [basic_line_merger_merge]
    rw [if_neg (by simp)]
    rw [mergeLoop]
    rw [show _is_new_block th none c = false from rfl]
    rw [if_neg (by simp)]
    rw [show ([] ++ [c] : List CharInfo) = [c] from rfl]
    rw [mergeLoop_eq_runsFrom th font_lookup page_height rest [] [c] c]
    rw [splitRuns_eq_runsFrom th rest c]
    rfl

theorem splitRuns_head (th : ℚ) :
    ∀ (l : List CharInfo) (c : CharInfo),
      ∃ t rs, splitRuns th (c :: l) = (c :: t) :: rs := by
  intro l
  induction l with
  | nil =>
    intro c
    exact ⟨[], [], rfl⟩
  | cons c' rest ih =>
    intro c
    by_cases hg : |c'.y0 - c.y0| ≤ th
    · obtain ⟨t, rs, h⟩ := ih c'
      refine ⟨c' :: t, rs, ?_⟩
      rw [splitRuns, if_pos hg, h]
    · exact ⟨[], splitRuns th (c' :: rest), by rw [splitRuns, if_neg hg]⟩

theorem splitRuns_flatten (th : ℚ) :
    ∀ l : List CharInfo, (splitRuns th l).flatten = l := by
  intro l
  induction l with
  | nil => rfl
  | cons c rest ih =>
    rcases rest with _ | ⟨c', rest'⟩
    · rfl
    · by_cases hg : |c'.y0 - c.y0| ≤ th
      · obtain ⟨t, rs, h⟩ := splitRuns_head th rest' c'
        rw [splitRuns, if_pos hg, h]
        rw [h] at ih
        rw [List.flatten_cons] at ih ⊢
        rw [List.cons_append, ih]
      · rw [splitRuns, if_neg hg]
        rw [List.flatten_cons, ih]
        rfl

theorem splitRuns_runs_within (th : ℚ) :
    ∀ l : List CharInfo, ∀ r ∈ splitRuns th l,
      r ≠ [] ∧ r.Chain' (fun a b => |b.y0 - a.y0| ≤ th) := by
  intro l
  induction l with
  | nil =>
    intro r hr
    exact absurd hr (List.not_mem_nil r)
  | cons c rest ih =>
    rcases rest with _ | ⟨c', rest'⟩
    · intro r hr
      rw [splitRuns] at hr
      rcases List.mem_singleton.mp hr with rfl
      exact ⟨by simp, List.chain'_singleton c⟩
    · intro r hr
      by_cases hg : |c'.y0 - c.y0| ≤ th
      · obtain ⟨t, rs, h⟩ := splitRuns_head th rest' c'
        rw [splitRuns, if_pos hg, h] at hr
        rcases List.mem_cons.mp hr with rfl | hr
        · constructor
          · simp
          · rw [List.chain'_cons]
            refine ⟨hg, ?_⟩
            have := ih (c' :: t) (by rw [h]; exact List.mem_cons_self _ _)
            exact this.2
        · exact ih r (by rw [h]; exact List.mem_cons_of_mem _ hr)
      · rw [splitRuns, if_neg hg] at hr
        rcases List.mem_cons.mp hr with rfl | hr
        · exact ⟨by simp, List.chain'_singleton c⟩
        · exact ih r hr

theorem splitRuns_boundaries (th : ℚ) :
    ∀ l : List CharInfo,
      List.Chain'
        (fun r1 r2 => ∀ a b, r1.getLast? = some a → r2.head? = some b →
          th < |b.y0 - a.y0|)
        (splitRuns th l) := by
  intro l
  induction l with
  | nil => exact List.chain'_nil
  | cons c rest ih =>
    rcases rest with _ | ⟨c', rest'⟩
    · exact List.chain'_singleton [c]
    · by_cases hg : |c'.y0 - c.y0| ≤ th
      · obtain ⟨t, rs, h⟩ := splitRuns_head th rest' c'
        rw [splitRuns, if_pos hg, h]
        rw [h] at ih
        rcases rs with _ | ⟨r2, rs'⟩
        · exact List.chain'_singleton _
        · rw [List.chain'_cons] at ih ⊢
          refine ⟨?_, ih.2⟩
          intro a b hlast hhead
          refine ih.1 a b ?_ hhead
          rw [List.getLast?_cons_cons] at hlast
          exact hlast
      · obtain ⟨t, rs, h⟩ := splitRuns_head th rest' c'
        rw [splitRuns, if_neg hg, h]
        rw [h] at ih
        rw [List.chain'_cons]
        constructor
        · intro a b hlast hhead
          rw [List.getLast?_singleton] at hlast
          rw [List.head?_cons] at hhead
          cases hlast
          cases hhead
          exact not_le.mp hg
        · exact ih

/-- Claim C6: the line merger processes characters in input order and
produces exactly the maximal runs of consecutive characters whose
`|y0| gap` stays within the threshold — a gap over the threshold starts a
new run, each finalized run is emitted only when its trimmed text is
nonempty (via `emitRun`), the runs concatenate back to the input (no
reordering or loss), every run is nonempty with all internal gaps within
the threshold, and consecutive runs are separated by a gap over the
threshold. -/
theorem line_merge_boundary (th : ℚ) (font_lookup : Nat → Option FontInfo)
    (page_height : ℚ) (chars : List CharInfo) :
    basic_line_merger_merge th font_lookup page_height chars
      = (splitRuns th chars).filterMap (emitRun font_lookup page_height)
    ∧ (splitRuns th chars).flatten = chars
    ∧ (∀ r ∈ splitRuns th chars, r ≠ [] ∧ r.Chain' (fun a b => |b.y0 - a.y0| ≤ th))
    ∧ List.Chain'
        (fun r1 r2 => ∀ a b, r1.getLast? = some a → r2.head? = some b →
          th < |b.y0 - a.y0|)
        (splitRuns th chars) :=
  ⟨basic_merge_eq_splitRuns th font_lookup page_height chars,
    splitRuns_flatten th chars,
    splitRuns_runs_within th chars,
    splitRuns_boundaries th chars⟩

/-- Two characters on one line and one a line below, for the line-merge
witness: gaps 3 (within the default threshold 5) then 20 (over it). -/
def demoChars : List CharInfo :=
  [{ char := "a", x0 := 0, y0 := 100, x1 := 5, y1 := 110, rotation := 0, index := 0 },
   { char := "b", x0 := 6, y0 := 103, x1 := 11, y1 := 110, rotation := 0, index := 1 },
   { char := "c", x0 := 0, y0 := 80, x1 := 5, y1 := 90, rotation := 0, index := 2 }]

theorem line_merge_boundary_witness :
    (splitRuns 5 demoChars).flatten = demoChars :=
  (line_merge_boundary 5 (fun _ => none) 200 demoChars).2.1

/-- A single whitespace character, as fed to the per-character merger. -/
def spaceChar : CharInfo :=
  { char := " ", x0 := 0, y0 := 0, x1 := 1, y1 := 1, rotation := 0, index := 0 }

/-- Counterexample to claim C5 as stated: `KeepCharacterMerger.merge`
applies no trim filter — a lone whitespace character is emitted as a
`TextBlock` whose text strips to empty. -/
theorem keep_merger_emits_blank_block :
    (keep_character_merger_merge (fun _ => none) 10 [spaceChar]).map
      (fun b => pyStrip b.text) = [""] := by
  have hsp : isPySpace ' ' = true := by decide
  have hdata : (" " : String).data = [' '] := by decide
  have hemp : ({ data := ([] : List Char) } : String) = "" := by decide
  norm_num [keep_character_merger_merge, spaceChar, pyStrip, List.dropWhile,
    hsp, hdata, hemp]

/-- Claim C5 (amended): every `TextBlock` emitted by the line merger has
text that is nonempty after trimming, while the per-character merger emits
exactly one block per input character with the character's text verbatim —
including whitespace-only characters, whose blocks strip to empty. -/
theorem emitted_blocks_text (th : ℚ) (font_lookup : Nat → Option FontInfo)
    (page_height : ℚ) (chars : List CharInfo) :
    (∀ b ∈ basic_line_merger_merge th font_lookup page_height chars,
      ¬ pyStrip b.text = "")
    ∧ (keep_character_merger_merge font_lookup page_height chars).map TextBlock.text
        = chars.map CharInfo.char := by
  constructor
  · intro b hb
    rw [basic_merge_eq_splitRuns] at hb
    obtain ⟨run, hrun, hemit⟩ := List.mem_filterMap.mp hb
    rw [emitRun] at hemit
    cases hcr : _create_text_block font_lookup page_height run with
    | none =>
      rw [hcr] at hemit
      cases hemit
    | some b' =>
      rw [hcr] at hemit
      by_cases hs : pyStrip b'.text = ""
      · simp [hs] at hemit
      · simp [hs] at hemit
        subst hemit
        exact hs
  · rw [keep_character_merger_merge, List.map_map]
    rfl

theorem emitted_blocks_text_witness :
    ({ text := "A",
       bbox := { x0 := 0, y0 := 99, x1 := 1, y1 := 100 },
       rotation := 0, confidence := none, font_info := none } : TextBlock)
      ∈ basic_line_merger_merge 5 (fun _ => none) 100
          [{ char := "A", x0 := 0, y0 := 0, x1 := 1, y1 := 1, rotation := 0, index := 0 }]
    ∧ ¬ pyStrip ("A") = "" := by
  have heval : basic_line_merger_merge 5 (fun _ => none) 100
      [{ char := "A", x0 := 0, y0 := 0, x1 := 1, y1 := 1, rotation := 0, index := 0 }]
      = [{ text := "A", bbox := { x0 := 0, y0 := 99, x1 := 1, y1 := 100 },
           rotation := 0, confidence := none, font_info := none }] := by
    have hA : isPySpace 'A' = false := by decide
    have hstr : ({ data := ['A'] } : String) = "A" := by decide
    have hdata : ("A" : String).data = ['A'] := by decide
    have hne : ("A" = "") = False := by simp
    norm_num [basic_line_merger_merge, mergeLoop, _is_new_block, flushBlock,
      _create_text_block, pyStrip, listMin, listMax, String.join,
      List.dropWhile, hA, hstr, hdata, hne]
  have hmem :
      ({ text := "A", bbox := { x0 := 0, y0 := 99, x1 := 1, y1 := 100 },
         rotation := 0, confidence := none, font_info := none } : TextBlock)
      ∈ basic_line_merger_merge 5 (fun _ => none) 100
          [{ char := "A", x0 := 0, y0 := 0, x1 := 1, y1 := 1, rotation := 0, index := 0 }] := by
    rw [heval]
    exact List.mem_singleton.mpr rfl
  exact ⟨hmem,
    (emitted_blocks_text 5 (fun _ => none) 100
      [{ char := "A", x0 := 0, y0 := 0, x1 := 1, y1 := 1, rotation := 0, index := 0 }]).1
      _ hmem⟩

end Xtra
